import Mathlib

/-!
Verification development for the deep pixel block codec of the `exrs`
repository (`src/block/deep.rs`).

The definitions below are a shallow embedding of the Rust source.  Machine
integers are modelled as `Nat` / `Int` with explicit wrap-around where the
source casts (`as i32`, `as u32`, `as i8`, `as u8`); bytes are `Nat` values
below 256; `f16` / `f32` sample values are modelled by their bit patterns,
which is exact because the source only ever touches them through
`to_le_bytes` / `from_le_bytes`.

The `DeepSamples` container (`crate::image::deep`) and the stream-compression
entry points (`crate::compression::deep`) are not part of the sources; they
are modelled from the specification and are marked `Modelled from the spec:`
in their doc comments.
-/

namespace Exrs

/-- Error type. The deep codec only ever constructs `Error::invalid(message)`;
the message string stands for the error kind. -/
inductive ExrError where
  | invalid (message : String)
deriving DecidableEq

/-- Mirrors `exr::error::Result`. -/
abbrev ExrResult (α : Type) : Type := Except ExrError α

instance {ε α : Type} [DecidableEq ε] [DecidableEq α] : DecidableEq (Except ε α) := fun a b =>
  match a, b with
  | .ok x, .ok y =>
    if h : x = y then isTrue (congrArg Except.ok h)
    else isFalse (fun hc => h (Except.ok.inj hc))
  | .error e, .error f =>
    if h : e = f then isTrue (congrArg Except.error h)
    else isFalse (fun hc => h (Except.error.inj hc))
  | .ok _, .error _ => isFalse (fun hc => Except.noConfusion hc)
  | .error _, .ok _ => isFalse (fun hc => Except.noConfusion hc)

/-- Little-endian byte encoding of the low `n` bytes of `v`
(Rust `to_le_bytes`). -/
def leBytes : Nat → Nat → List Nat
  | 0, _ => []
  | n + 1, v => v % 256 :: leBytes n (v / 256)

/-- Value of a little-endian byte list (Rust `from_le_bytes`). -/
def leValue : List Nat → Nat
  | [] => 0
  | b :: bs => b + 256 * leValue bs

/-- Read `n` little-endian bytes of `data` starting at `off`
(models `data[off]`, …, `data[off+n-1]` feeding `from_le_bytes`). -/
def readLe (data : List Nat) (off n : Nat) : Nat :=
  leValue ((data.drop off).take n)

/-- Rust `u8 as i8` (wrap-around into `[-128, 128)`). -/
def toI8 (b : Nat) : Int :=
  if b % 256 < 128 then (b % 256 : Int) else (b % 256 : Int) - 256

/-- Rust `i8 as u8` (wrap-around into `[0, 256)`). -/
def toU8 (i : Int) : Nat := (i % 256).toNat

/-- Rust `u32 as i32` (the wrap-around cast used for the offset table). -/
def toI32 (c : Nat) : Int :=
  if c % 2 ^ 32 < 2 ^ 31 then (c % 2 ^ 32 : Int) else (c % 2 ^ 32 : Int) - 2 ^ 32

/-- Rust `i32 as u32` (the wrap-around cast used for the offset table). -/
def toU32 (c : Int) : Nat := (c % (2 ^ 32)).toNat

/-- Boolean check that a list of naturals is monotonically non-decreasing. -/
def monotoneList : List Nat → Bool
  | [] => true
  | [_] => true
  | a :: b :: t => decide (a ≤ b) && monotoneList (b :: t)

/-- Boolean check that a list of integers is monotonically non-decreasing. -/
def intMonotone : List Int → Bool
  | [] => true
  | [_] => true
  | a :: b :: t => decide (a ≤ b) && intMonotone (b :: t)

/-- Mirrors `exr::meta::attribute::SampleType` (`{F16, F32, U32}`). -/
inductive SampleType where
  | f16
  | f32
  | u32
deriving DecidableEq

/-- Mirrors `SampleType::bytes_per_sample`: 2 bytes for F16, 4 for F32/U32. -/
def SampleType.bytes_per_sample : SampleType → Nat
  | .f16 => 2
  | .f32 => 4
  | .u32 => 4

/-- Mirrors `exr::meta::attribute::ChannelDescription`. -/
structure ChannelDescription where
  name : String
  sample_type : SampleType
  is_linear : Bool
deriving DecidableEq

/-- Mirrors `exr::meta::attribute::ChannelList` (ordered channel sequence). -/
structure ChannelList where
  list : List ChannelDescription
deriving DecidableEq

/-- Mirrors `exr::image::deep::DeepChannelData`: a tagged dense typed array.
Values are the 16-bit (F16) or 32-bit (F32 bit pattern / U32) payloads. -/
inductive DeepChannelData where
  | F16 (values : List Nat)
  | F32 (values : List Nat)
  | U32 (values : List Nat)
deriving DecidableEq

/-- Mirrors `exr::image::deep::DeepSamples`: per-pixel cumulative sample
offsets over the whole block plus one typed array per channel. -/
structure DeepSamples where
  width : Nat
  height : Nat
  sample_offsets : List Nat
  channels : List DeepChannelData
deriving DecidableEq

/-- Modelled from the spec: `pixel_count = width * height`. -/
def DeepSamples.pixel_count (s : DeepSamples) : Nat := s.width * s.height

/-- Modelled from the spec: `total_samples = sample_offsets[pixel_count]`
(the container `crate::image::deep` is not under src). -/
def DeepSamples.total_samples (s : DeepSamples) : Nat :=
  s.sample_offsets.getD s.pixel_count 0

/-- Modelled from the spec: `sample_range(i) = (sample_offsets[i], sample_offsets[i+1])`. -/
def DeepSamples.sample_range (s : DeepSamples) (i : Nat) : Nat × Nat :=
  (s.sample_offsets.getD i 0, s.sample_offsets.getD (i + 1) 0)

/-- Modelled from the spec: `DeepSamples::new(width, height)` starts in an
uninitialized state, before `set_cumulative_counts` installs the offsets. -/
def DeepSamples.new (width height : Nat) : DeepSamples :=
  { width := width, height := height, sample_offsets := [], channels := [] }

/-- Modelled from the spec: `set_cumulative_counts(offsets)` validates that the
length is `pixel_count + 1` or `pixel_count` (a leading `0` is prepended in the
latter case), that `offsets[0] == 0` and that the offsets are monotonically
non-decreasing; fails `Malformed` otherwise (`crate::image::deep` is not under
src). -/
def DeepSamples.set_cumulative_counts (s : DeepSamples) (offsets : List Nat) :
    ExrResult DeepSamples :=
  let offs := if offsets.length = s.pixel_count then 0 :: offsets else offsets
  if offs.length = s.pixel_count + 1 && offs.headD 0 == 0 && monotoneList offs then
    .ok { s with sample_offsets := offs }
  else
    .error (.invalid "malformed cumulative sample counts")

/-- Modelled from the spec: one typed array per channel description, of length
`total`, variant dictated by `sample_type` (`allocate_channels` of the
container, not under src). -/
def allocateChannel (total : Nat) (d : ChannelDescription) : DeepChannelData :=
  match d.sample_type with
  | .f16 => .F16 (List.replicate total 0)
  | .f32 => .F32 (List.replicate total 0)
  | .u32 => .U32 (List.replicate total 0)

/-- Modelled from the spec: `allocate_channels(channels)` replaces the channel
storage by freshly allocated, correctly typed arrays of length
`total_samples`. -/
def DeepSamples.allocate_channels (s : DeepSamples) (channels : ChannelList) :
    DeepSamples :=
  { s with channels := channels.list.map (allocateChannel s.total_samples) }

/-- Length of the dense array a channel carries. -/
def channelLength : DeepChannelData → Nat
  | .F16 v => v.length
  | .F32 v => v.length
  | .U32 v => v.length

/-- Modelled from the spec: `DeepSamples::validate()` rechecks the structural
invariants it can see without the channel list: offset-table shape and
per-channel array lengths (the container is not under src). -/
def DeepSamples.validate (s : DeepSamples) : ExrResult Unit :=
  if s.sample_offsets.length = s.pixel_count + 1 && s.sample_offsets.headD 0 == 0
      && monotoneList s.sample_offsets
      && s.channels.all (fun c => channelLength c == s.total_samples) then
    .ok ()
  else
    .error (.invalid "deep samples failed validation")

/-- Mirrors `exr::compression::Compression` (the tags the codec passes through). -/
inductive Compression where
  | uncompressed
  | rle
  | zips
  | zip
  | piz
  | pxr24
  | b44
  | b44a
  | dwaa
  | dwab
deriving DecidableEq

/-- Byte serialization of a signed-32 sample table, four little-endian bytes
per entry (two's complement). -/
def sampleTableBytes (table : List Int) : List Nat :=
  table.flatMap (fun c => leBytes 4 (toU32 c))

/-- Parse a byte stream as consecutive little-endian signed-32 values. -/
def parseI32s : List Nat → List Int
  | b0 :: b1 :: b2 :: b3 :: t => toI32 (b0 + 256 * (b1 + 256 * (b2 + 256 * b3))) :: parseI32s t
  | _ => []

/-- Modelled from the spec: external `compress_sample_table` of
`crate::compression::deep` (not under src). The external compressors are
assumed to round-trip (property P1 of the spec); they are modelled by the
`Uncompressed` behaviour, a plain byte serialization, for every tag. -/
def compress_sample_table (_compression : Compression) (table : List Int) :
    ExrResult (List Nat) :=
  .ok (sampleTableBytes table)

/-- Modelled from the spec: external `decompress_sample_table` of
`crate::compression::deep` (not under src), the inverse of
`compress_sample_table` under the round-trip assumption. The spec's
`width * height` length check is omitted: the source's own tests compress
tables of length `width * height + 1` and decompress them successfully. -/
def decompress_sample_table (_compression : Compression) (bytes : List Nat)
    (_width _height : Nat) (_pedantic : Bool) : ExrResult (List Int) :=
  .ok (parseI32s bytes)

/-- Modelled from the spec: external `validate_sample_table` of
`crate::compression::deep` (not under src). Per the source doc of the decode
path it validates that the counts are monotonically non-decreasing (as signed
integers; per the spec's design notes the source does not reject negative
entries separately). -/
def validate_sample_table (counts : List Int) : ExrResult Unit :=
  if intMonotone counts then .ok ()
  else .error (.invalid "sample table counts not monotonically non-decreasing")

/-- Modelled from the spec: external `compress_sample_data` (not under src),
modelled by the `Uncompressed` behaviour under the round-trip assumption. -/
def compress_sample_data (_compression : Compression) (data : List Nat) :
    ExrResult (List Nat) :=
  .ok data

/-- Modelled from the spec: external `decompress_sample_data` (not under src):
returns the raw bytes, of exactly the expected decompressed size. -/
def decompress_sample_data (_compression : Compression) (bytes : List Nat)
    (expected_size : Nat) (_pedantic : Bool) : ExrResult (List Nat) :=
  if bytes.length = expected_size then .ok bytes
  else .error (.invalid "decompressed sample data has wrong size")

/-- Mirrors `exr::block::chunk::CompressedDeepScanLineBlock`: the compressed
offset table is stored as `Vec<i8>`, the sample data as bytes. -/
structure CompressedDeepScanLineBlock where
  y_coordinate : Int
  decompressed_sample_data_size : Nat
  compressed_pixel_offset_table : List Int
  compressed_sample_data_le : List Nat
deriving DecidableEq

/-- Sum of `bytes_per_sample` over a channel-description list (the
`channels.list.iter().map(bytes_per_sample).sum()` computation). -/
def channelsSize (ds : List ChannelDescription) : Nat :=
  (ds.map (fun ch => ch.sample_type.bytes_per_sample)).sum

/-- One channel's contribution to one sample of the packed stream: the
little-endian bytes of the value when the variant matches the description's
`sample_type`, nothing otherwise (`pack_deep_channels` silently skips a
mismatched channel). -/
def packOne (d : ChannelDescription) (cd : DeepChannelData) (srcIdx : Nat) : List Nat :=
  match d.sample_type, cd with
  | .f16, .F16 v => leBytes 2 (v.getD srcIdx 0)
  | .f32, .F32 v => leBytes 4 (v.getD srcIdx 0)
  | .u32, .U32 v => leBytes 4 (v.getD srcIdx 0)
  | _, _ => []

/-- Inner channel loop of `pack_deep_channels` for one sample: walks the
channel descriptions from `chIdx`, indexing `samples.channels[ch_idx]` (the
source panics when the index is out of range; the default is never reached on
lists with one channel entry per description). -/
def packSampleChannels (chans : List DeepChannelData) (descs : List ChannelDescription)
    (chIdx srcIdx : Nat) : List Nat :=
  match descs with
  | [] => []
  | d :: rest =>
    packOne d (chans.getD chIdx (.F32 [])) srcIdx
      ++ packSampleChannels chans rest (chIdx + 1) srcIdx

/-- Mirrors `pack_deep_channels`: for each pixel in row-major order, for each
sample of the pixel, for each channel in list order, append the little-endian
bytes of the value. Returns the interleaved byte stream. -/
def pack_deep_channels (samples : DeepSamples) (channels : ChannelList) : List Nat :=
  if samples.total_samples = 0 then []
  else
    (List.range samples.pixel_count).flatMap (fun pixelIdx =>
      let r := samples.sample_range pixelIdx
      (List.range (r.2 - r.1)).flatMap (fun sampleIdx =>
        packSampleChannels samples.channels channels.list 0 (r.1 + sampleIdx)))

/-- One channel/sample step of `unpack_deep_channels`: read the value at
`off` and store it at `destIdx` when the variant matches the description's
`sample_type`; a mismatched channel is silently left unchanged. -/
def unpackStep (data : List Nat) (d : ChannelDescription) (cd : DeepChannelData)
    (off destIdx : Nat) : DeepChannelData :=
  match d.sample_type, cd with
  | .f16, .F16 v => .F16 (v.set destIdx (readLe data off 2))
  | .f32, .F32 v => .F32 (v.set destIdx (readLe data off 4))
  | .u32, .U32 v => .U32 (v.set destIdx (readLe data off 4))
  | _, other => other

/-- Inner channel loop of `unpack_deep_channels` for one sample: threads the
byte cursor (which advances by the description's width whether or not the
variant matched) and the channel-array state. -/
def unpackSampleChannels (data : List Nat) (chans : List DeepChannelData)
    (descs : List ChannelDescription) (chIdx dataOffset destIdx : Nat) :
    Nat × List DeepChannelData :=
  match descs with
  | [] => (dataOffset, chans)
  | d :: rest =>
    let cd := chans.getD chIdx (.F32 [])
    let cd2 := unpackStep data d cd dataOffset destIdx
    unpackSampleChannels data (chans.set chIdx cd2) rest (chIdx + 1)
      (dataOffset + d.sample_type.bytes_per_sample) destIdx

/-- Pixel and sample loops of `unpack_deep_channels`: fold over pixels in
row-major order, over each pixel's samples in index order, threading the byte
cursor and channel arrays. -/
def unpackPixelLoop (data : List Nat) (descs : List ChannelDescription)
    (s : DeepSamples) : Nat × List DeepChannelData :=
  (List.range s.pixel_count).foldl
    (fun acc pixelIdx =>
      let r := s.sample_range pixelIdx
      (List.range (r.2 - r.1)).foldl
        (fun acc2 sampleIdx =>
          unpackSampleChannels data acc2.2 descs 0 acc2.1 (r.1 + sampleIdx))
        acc)
    (0, s.channels)

/-- Message of the `Error::invalid` raised on a sample-data size mismatch. -/
def sizeMismatchMessage : String := "deep sample data size mismatch"

/-- Mirrors `unpack_deep_channels`: the mutated `DeepSamples` (the Rust
`&mut` argument) is returned together with the `Result<()>`. -/
def unpack_deep_channels (data : List Nat) (samples : DeepSamples)
    (channels : ChannelList) : DeepSamples × ExrResult Unit :=
  let total := samples.total_samples
  if total = 0 then
    (samples.allocate_channels channels, .ok ())
  else
    let samples1 := samples.allocate_channels channels
    let bytes_per_sample := channelsSize channels.list
    let expected_size := total * bytes_per_sample
    if data.length ≠ expected_size then
      (samples1, .error (.invalid sizeMismatchMessage))
    else
      let result := unpackPixelLoop data channels.list samples1
      ({ samples1 with channels := result.2 }, .ok ())

/-- Mirrors `compress_deep_scanline_block`: cast the per-pixel cumulative
offsets to `i32` (plain wrap-around cast), compress the table, pack and
compress the sample data, and assemble the block record. -/
def compress_deep_scanline_block (samples : DeepSamples) (compression : Compression)
    (channels : ChannelList) (y_coordinate : Int) :
    ExrResult CompressedDeepScanLineBlock :=
  let cumulative_i32 : List Int := samples.sample_offsets.map (fun c => toI32 c)
  match compress_sample_table compression cumulative_i32 with
  | .error e => .error e
  | .ok compressed_table =>
    let packed_data := pack_deep_channels samples channels
    let decompressed_size := packed_data.length
    match compress_sample_data compression packed_data with
    | .error e => .error e
    | .ok compressed_data =>
      .ok { y_coordinate := y_coordinate
            decompressed_sample_data_size := decompressed_size
            compressed_pixel_offset_table := compressed_table.map (fun b => toI8 b)
            compressed_sample_data_le := compressed_data }

/-- Mirrors `decompress_deep_scanline_block`: decompress and validate the
offset table, cast it `i32 → u32` and install it via `set_cumulative_counts`,
decompress the sample data, unpack the channels, and run the final
self-check. -/
def decompress_deep_scanline_block (block : CompressedDeepScanLineBlock)
    (compression : Compression) (channels : ChannelList)
    (data_window_width lines_per_block : Nat) (pedantic : Bool) :
    ExrResult DeepSamples :=
  match decompress_sample_table compression
      (block.compressed_pixel_offset_table.map toU8)
      data_window_width lines_per_block pedantic with
  | .error e => .error e
  | .ok cumulative_counts =>
    match validate_sample_table cumulative_counts with
    | .error e => .error e
    | .ok _ =>
      match (DeepSamples.new data_window_width lines_per_block).set_cumulative_counts
          (cumulative_counts.map toU32) with
      | .error e => .error e
      | .ok samples1 =>
        match decompress_sample_data compression block.compressed_sample_data_le
            block.decompressed_sample_data_size pedantic with
        | .error e => .error e
        | .ok decompressed_data =>
          match unpack_deep_channels decompressed_data samples1 channels with
          | (_, .error e) => .error e
          | (samples2, .ok _) =>
            match samples2.validate with
            | .error e => .error e
            | .ok _ => .ok samples2

/-- Modelled from the spec: `disk_table_to_pixel_offsets(table, width, height)`,
the per-line cumulative to per-pixel cumulative conversion the claims describe:
`pixel_offsets[0] = 0`, and each pixel's count is `table[i]` minus
`table[i-1]` unless the pixel is first in its row, in which case it is
`table[i]` itself. -/
def disk_table_to_pixel_offsets (width height : Nat) (table : List Int) : List Int :=
  (List.range (width * height)).foldl
    (fun acc i =>
      let prev : Int := if i % width = 0 then 0 else table.getD (i - 1) 0
      let count := table.getD i 0 - prev
      acc ++ [acc.getLastD 0 + count])
    [0]

/-- Modelled from the spec: `pixel_offsets_to_disk_table(pixel_offsets, width,
height)`: for each pixel `(x, y)`, `table[y*width + x] =
pixel_offsets[y*width + x + 1] - pixel_offsets[y*width]` (the spec's overflow
check is irrelevant to the value comparison made here). -/
def pixel_offsets_to_disk_table (width height : Nat) (pixel_offsets : List Nat) :
    List Int :=
  (List.range (width * height)).map (fun i =>
    (pixel_offsets.getD (i + 1) 0 : Int) - (pixel_offsets.getD (i / width * width) 0 : Int))

/-- Variant tag of a channel array matches a `sample_type`. -/
def channelMatches : DeepChannelData → SampleType → Bool
  | .F16 _, .f16 => true
  | .F32 _, .f32 => true
  | .U32 _, .u32 => true
  | _, _ => false

/-- Dense value array carried by a channel. -/
def channelValues : DeepChannelData → List Nat
  | .F16 v => v
  | .F32 v => v
  | .U32 v => v

/-- Values fit the bit width of the variant (automatic for the Rust types
`f16` / `f32` / `u32`, whose payloads are 16 or 32 bits). -/
def channelValuesBounded : DeepChannelData → Bool
  | .F16 v => v.all (fun x => decide (x < 2 ^ 16))
  | .F32 v => v.all (fun x => decide (x < 2 ^ 32))
  | .U32 v => v.all (fun x => decide (x < 2 ^ 32))

/-- Invariant I2: one channel array per description, with matching variant
tag, length exactly `total`, and values within the variant's bit width. -/
def channelsWellFormed (total : Nat) :
    List DeepChannelData → List ChannelDescription → Bool
  | [], [] => true
  | cd :: cds, d :: ds =>
    channelMatches cd d.sample_type && channelLength cd == total
      && channelValuesBounded cd && channelsWellFormed total cds ds
  | _, _ => false

/-- Invariant I1: `sample_offsets` has length `pixel_count + 1`, starts at 0,
and is monotonically non-decreasing. -/
def validSampleOffsets (s : DeepSamples) : Bool :=
  s.sample_offsets.length == s.pixel_count + 1
    && s.sample_offsets.headD 0 == 0
    && monotoneList s.sample_offsets

/-- Invariants I1 and I2 of a `DeepSamples` against a channel list. -/
def validDeepSamples (s : DeepSamples) (cl : ChannelList) : Bool :=
  validSampleOffsets s && channelsWellFormed s.total_samples s.channels cl.list

/-- Structured form of the per-sample channel loop of `pack_deep_channels`,
walking descriptions and channel arrays in step (equal to
`packSampleChannels` when the channel list lengths agree). -/
def packChansSimple (g : Nat) :
    List ChannelDescription → List DeepChannelData → List Nat
  | [], _ => []
  | _ :: _, [] => []
  | d :: rest, c :: cs => packOne d c g ++ packChansSimple g rest cs

/-- Structured form of the per-sample channel loop of `unpack_deep_channels`
(equal to the state-threading `unpackSampleChannels`). -/
def unpackChansSimple (data : List Nat) (off g : Nat) :
    List ChannelDescription → List DeepChannelData → List DeepChannelData
  | [], cs => cs
  | _ :: _, [] => []
  | d :: rest, c :: cs =>
    unpackStep data d c off g
      :: unpackChansSimple data (off + d.sample_type.bytes_per_sample) g rest cs

/-- Channel array state after the first `k` of `total` samples have been
unpacked: the first `k` positions hold the original values, the rest the
freshly allocated zeros. -/
def mixChan (total k : Nat) : DeepChannelData → DeepChannelData
  | .F16 v => .F16 (v.take k ++ List.replicate (total - k) 0)
  | .F32 v => .F32 (v.take k ++ List.replicate (total - k) 0)
  | .U32 v => .U32 (v.take k ++ List.replicate (total - k) 0)

/-- Empty channel list. -/
def emptyChannelList : ChannelList := ⟨[]⟩

/-- Single-channel F32 list. -/
def f32ChannelList : ChannelList := ⟨[⟨"R", .f32, true⟩]⟩

/-- Per-line cumulative on-disk table of the module doc's own example:
3 pixels wide, 2 lines, per-pixel counts `[2,1,3] [0,2,1]`. -/
def perLineTable : List Int := [2, 3, 6, 0, 2, 3]

/-- Block whose offset-table section carries `perLineTable` (no sample data,
no channels). -/
def blockPerLine : CompressedDeepScanLineBlock :=
  ⟨0, 0, (sampleTableBytes perLineTable).map toI8, []⟩

/-- The repo test's own 2×2 samples (per-pixel counts `[1,2,0,3]`), without
channel data. -/
def samplesFourPixel : DeepSamples := ⟨2, 2, [0, 1, 3, 3, 6], []⟩

/-- Structurally valid 1×1 block whose single pixel has `2^31` samples and no
channels. -/
def samplesBig : DeepSamples := ⟨1, 1, [0, 2 ^ 31], []⟩

/-- 1×1 block with one sample whose stored channel variant (U32) differs from
the F32 channel list. -/
def samplesMismatch : DeepSamples := ⟨1, 1, [0, 1], [.U32 [5]]⟩

/-- 1×1 block with zero samples. -/
def samplesZero : DeepSamples := ⟨1, 1, [0, 0], []⟩

/-- 2×2 block with one F32 channel, used as a concrete round-trip witness. -/
def samplesRt : DeepSamples := ⟨2, 2, [0, 1, 3, 3, 6], [.F32 [1, 2, 3, 4, 5, 6]]⟩

/-- 2×1 block with an F16 and a U32 channel, used as a concrete pack/unpack
witness. -/
def samplesMixed : DeepSamples := ⟨2, 1, [0, 2, 3], [.F16 [100, 200, 300], .U32 [7, 8, 9]]⟩

/-- Channel list matching `samplesMixed`. -/
def mixedChannelList : ChannelList := ⟨[⟨"Z", .f16, true⟩, ⟨"id", .u32, false⟩]⟩

/-! ### Byte-level lemmas -/

theorem leBytes_length (n v : Nat) : (leBytes n v).length = n := by
  induction n generalizing v with
  | zero => rfl
  | succ k ih => simp [leBytes, ih]

theorem leValue_leBytes (n v : Nat) : leValue (leBytes n v) = v % 256 ^ n := by
  induction n generalizing v with
  | zero => simp [leBytes, leValue, Nat.mod_one]
  | succ k ih =>
    show v % 256 + 256 * leValue (leBytes k (v / 256)) = v % 256 ^ (k + 1)
    rw [ih, pow_succ', Nat.mod_mul]

theorem leBytes_lt (n v : Nat) : ∀ b ∈ leBytes n v, b < 256 := by
  induction n generalizing v with
  | zero => intro b hb; simp [leBytes] at hb
  | succ k ih =>
    intro b hb
    simp only [leBytes, List.mem_cons] at hb
    rcases hb with h | h
    · omega
    · exact ih (v / 256) b h

theorem readLe_of_drop (data : List Nat) (off n v : Nat) (rest : List Nat)
    (h : data.drop off = leBytes n v ++ rest) : readLe data off n = v % 256 ^ n := by
  unfold readLe
  rw [h, List.take_append_of_le_length (by rw [leBytes_length]),
    List.take_of_length_le (by rw [leBytes_length]), leValue_leBytes]

/-! ### Cast lemmas -/

theorem toU8_toI8 (b : Nat) (h : b < 256) : toU8 (toI8 b) = b := by
  unfold toI8 toU8
  split <;> omega

theorem toI32_of_lt (n : Nat) (h : n < 2 ^ 31) : toI32 n = (n : Int) := by
  unfold toI32
  split <;> push_cast <;> omega

theorem toU32_toI32 (n : Nat) (h : n < 2 ^ 32) : toU32 (toI32 n) = n := by
  unfold toI32 toU32
  split <;> push_cast <;> omega

theorem toU32_lt (c : Int) : toU32 c < 2 ^ 32 := by
  unfold toU32
  omega

theorem toI32_toU32 (c : Int) (h1 : -(2 ^ 31) ≤ c) (h2 : c < 2 ^ 31) :
    toI32 (toU32 c) = c := by
  unfold toI32 toU32
  split <;> push_cast <;> omega

/-! ### Sample-table serialization lemmas -/

theorem parseI32s_leBytes_cons (x : Nat) (r : List Nat) (hx : x < 2 ^ 32) :
    parseI32s (leBytes 4 x ++ r) = toI32 x :: parseI32s r := by
  show parseI32s (x % 256 :: x / 256 % 256 :: x / 256 / 256 % 256
      :: x / 256 / 256 / 256 % 256 :: r) = toI32 x :: parseI32s r
  rw [parseI32s]
  have h4 := leValue_leBytes 4 x
  simp only [leBytes, leValue] at h4
  have hm : x % 2 ^ 32 = x := Nat.mod_eq_of_lt hx
  have : x % 256 + 256 * (x / 256 % 256 + 256 * (x / 256 / 256 % 256
      + 256 * (x / 256 / 256 / 256 % 256))) = x := by
    rw [show (256 : Nat) ^ 4 = 2 ^ 32 by norm_num] at h4
    omega
  rw [this]

theorem parseI32s_sampleTableBytes (t : List Int) :
    parseI32s (sampleTableBytes t) = t.map (fun c => toI32 (toU32 c)) := by
  induction t with
  | nil => rfl
  | cons c cs ih =>
    show parseI32s (leBytes 4 (toU32 c) ++ sampleTableBytes cs) = _
    rw [parseI32s_leBytes_cons _ _ (toU32_lt c), ih, List.map_cons]

theorem sampleTableBytes_lt (t : List Int) : ∀ b ∈ sampleTableBytes t, b < 256 := by
  intro b hb
  simp only [sampleTableBytes, List.mem_flatMap] at hb
  rcases hb with ⟨c, _, hmem⟩
  exact leBytes_lt 4 (toU32 c) b hmem

theorem map_toU8_map_toI8 (l : List Nat) (h : ∀ b ∈ l, b < 256) :
    (l.map (fun b => toI8 b)).map toU8 = l := by
  rw [List.map_map]
  conv_rhs => rw [← List.map_id l]
  exact List.map_congr_left (fun b hb => toU8_toI8 b (h b hb))

/-! ### List helpers -/

theorem getD_append_add {α : Type} (pre l : List α) (n : Nat) (d : α) :
    (pre ++ l).getD (pre.length + n) d = l.getD n d := by
  induction pre with
  | nil => simp
  | cons a t ih =>
    show (a :: (t ++ l)).getD (t.length + 1 + n) d = l.getD n d
    have he : t.length + 1 + n = (t.length + n) + 1 := by omega
    rw [he]
    simpa using ih

theorem set_append_add {α : Type} (pre l : List α) (n : Nat) (v : α) :
    (pre ++ l).set (pre.length + n) v = pre ++ l.set n v := by
  rw [List.set_append, if_neg (by omega), Nat.add_sub_cancel_left]

/-! ### Monotone-list lemmas -/

theorem monotoneList_tail (a : Nat) (l : List Nat)
    (h : monotoneList (a :: l) = true) : monotoneList l = true := by
  cases l with
  | nil => rfl
  | cons b t =>
    have h2 : a ≤ b ∧ monotoneList (b :: t) = true := by
      simpa [monotoneList, Bool.and_eq_true] using h
    exact h2.2

theorem monotoneList_getD_succ (l : List Nat) (h : monotoneList l = true) (i : Nat)
    (hi : i + 1 < l.length) : l.getD i 0 ≤ l.getD (i + 1) 0 := by
  induction l generalizing i with
  | nil => simp at hi
  | cons a t ih =>
    cases t with
    | nil => simp at hi
    | cons b t2 =>
      have h2 : a ≤ b ∧ monotoneList (b :: t2) = true := by
        simpa [monotoneList, Bool.and_eq_true] using h
      cases i with
      | zero => simpa [List.getD] using h2.1
      | succ j =>
        have := ih h2.2 j (by simpa using hi)
        simpa [List.getD] using this

theorem monotoneList_getD_le (l : List Nat) (h : monotoneList l = true) (i j : Nat)
    (hij : i ≤ j) (hj : j < l.length) : l.getD i 0 ≤ l.getD j 0 := by
  induction j, hij using Nat.le_induction with
  | base => exact le_refl _
  | succ k hk ih =>
    exact le_trans (ih (by omega)) (monotoneList_getD_succ l h k hj)

theorem intMonotone_map_toI32 (l : List Nat) (h : monotoneList l = true)
    (hb : ∀ x ∈ l, x < 2 ^ 31) :
    intMonotone (l.map (fun c => toI32 c)) = true := by
  induction l with
  | nil => rfl
  | cons a t ih =>
    cases t with
    | nil => rfl
    | cons b t2 =>
      have h2 : a ≤ b ∧ monotoneList (b :: t2) = true := by
        simpa [monotoneList, Bool.and_eq_true] using h
      have ha : a < 2 ^ 31 := hb a (by simp)
      have hbb : b < 2 ^ 31 := hb b (by simp)
      show intMonotone (toI32 a :: toI32 b :: t2.map (fun c => toI32 c)) = true
      have htail : intMonotone (toI32 b :: t2.map (fun c => toI32 c)) = true := by
        simpa using ih h2.2 (fun x hx => hb x (by simp [hx]))
      simp only [intMonotone, Bool.and_eq_true, htail, and_true, decide_eq_true_eq]
      rw [toI32_of_lt a ha, toI32_of_lt b hbb]
      exact_mod_cast h2.1

/-! ### Channel well-formedness lemmas -/

theorem channelsWellFormed_cons (total : Nat) (c : DeepChannelData)
    (cs : List DeepChannelData) (d : ChannelDescription) (ds : List ChannelDescription)
    (h : channelsWellFormed total (c :: cs) (d :: ds) = true) :
    channelMatches c d.sample_type = true ∧ channelLength c = total
      ∧ channelValuesBounded c = true ∧ channelsWellFormed total cs ds = true := by
  simpa [channelsWellFormed, Bool.and_eq_true, and_assoc] using h

theorem channelsWellFormed_length (total : Nat) (cs : List DeepChannelData)
    (ds : List ChannelDescription) (h : channelsWellFormed total cs ds = true) :
    cs.length = ds.length := by
  induction cs generalizing ds with
  | nil =>
    cases ds with
    | nil => rfl
    | cons d ds2 => simp [channelsWellFormed] at h
  | cons c cs2 ih =>
    cases ds with
    | nil => simp [channelsWellFormed] at h
    | cons d ds2 =>
      have h4 := channelsWellFormed_cons total c cs2 d ds2 h
      simp [ih ds2 h4.2.2.2]

/-! ### Per-sample pack loop lemmas -/

theorem headD_eq_getD {α : Type} (l : List α) (d : α) : l.headD d = l.getD 0 d := by
  cases l <;> rfl

theorem getD_append_self {α : Type} (pre : List α) (c : α) (t : List α) (d : α) :
    (pre ++ c :: t).getD pre.length d = c := by
  simpa using getD_append_add pre (c :: t) 0 d

theorem packSampleChannels_eq_simple (ds : List ChannelDescription) :
    ∀ (pre cs : List DeepChannelData) (g : Nat), cs.length = ds.length →
    packSampleChannels (pre ++ cs) ds pre.length g = packChansSimple g ds cs := by
  induction ds with
  | nil => intro pre cs g hl; rfl
  | cons d ds2 ih =>
    intro pre cs g hl
    cases cs with
    | nil => simp at hl
    | cons c cs2 =>
      show packOne d ((pre ++ c :: cs2).getD pre.length (.F32 [])) g
          ++ packSampleChannels (pre ++ c :: cs2) ds2 (pre.length + 1) g
          = packChansSimple g (d :: ds2) (c :: cs2)
      rw [getD_append_self]
      have hrec := ih (pre ++ [c]) cs2 g (by simpa using hl)
      rw [show (pre ++ [c]) ++ cs2 = pre ++ c :: cs2 by simp,
        show (pre ++ [c]).length = pre.length + 1 by simp] at hrec
      rw [hrec]
      rfl

theorem packOne_length (_total : Nat) (d : ChannelDescription) (c : DeepChannelData)
    (g : Nat) (hm : channelMatches c d.sample_type = true) :
    (packOne d c g).length = d.sample_type.bytes_per_sample := by
  cases c <;> cases hd : d.sample_type <;>
    simp [channelMatches, hd] at hm ⊢ <;>
    simp [packOne, hd, leBytes_length, SampleType.bytes_per_sample]

theorem channelsSize_cons (d : ChannelDescription) (ds : List ChannelDescription) :
    channelsSize (d :: ds) = d.sample_type.bytes_per_sample + channelsSize ds := by
  simp [channelsSize]

theorem packChansSimple_length (total g : Nat) :
    ∀ (ds : List ChannelDescription) (cs : List DeepChannelData),
    channelsWellFormed total cs ds = true →
    (packChansSimple g ds cs).length = channelsSize ds := by
  intro ds
  induction ds with
  | nil =>
    intro cs hwf
    cases cs with
    | nil => rfl
    | cons c cs2 => simp [channelsWellFormed] at hwf
  | cons d ds2 ih =>
    intro cs hwf
    cases cs with
    | nil => simp [channelsWellFormed] at hwf
    | cons c cs2 =>
      have h4 := channelsWellFormed_cons total c cs2 d ds2 hwf
      show (packOne d c g ++ packChansSimple g ds2 cs2).length = _
      rw [List.length_append, packOne_length total d c g h4.1, ih cs2 h4.2.2.2,
        channelsSize_cons]

/-! ### Per-sample unpack loop lemmas -/

theorem unpackSampleChannels_fst (data : List Nat) (ds : List ChannelDescription) :
    ∀ (chans : List DeepChannelData) (chIdx off g : Nat),
    (unpackSampleChannels data chans ds chIdx off g).1 = off + channelsSize ds := by
  induction ds with
  | nil => intro chans chIdx off g; simp [unpackSampleChannels, channelsSize]
  | cons d ds2 ih =>
    intro chans chIdx off g
    show (unpackSampleChannels data
        (chans.set chIdx (unpackStep data d (chans.getD chIdx (.F32 [])) off g)) ds2
        (chIdx + 1) (off + d.sample_type.bytes_per_sample) g).1 = _
    rw [ih, channelsSize_cons]
    omega

theorem unpackSampleChannels_oob (data : List Nat) (ds : List ChannelDescription) :
    ∀ (chans : List DeepChannelData) (chIdx off g : Nat), chans.length ≤ chIdx →
    (unpackSampleChannels data chans ds chIdx off g).2 = chans := by
  induction ds with
  | nil => intro chans chIdx off g _; rfl
  | cons d ds2 ih =>
    intro chans chIdx off g hle
    show (unpackSampleChannels data
        (chans.set chIdx (unpackStep data d (chans.getD chIdx (.F32 [])) off g)) ds2
        (chIdx + 1) (off + d.sample_type.bytes_per_sample) g).2 = chans
    rw [List.set_eq_of_length_le hle]
    exact ih chans (chIdx + 1) _ g (by omega)

theorem unpackSampleChannels_eq_simple (data : List Nat) (ds : List ChannelDescription) :
    ∀ (pre cs : List DeepChannelData) (off g : Nat),
    (unpackSampleChannels data (pre ++ cs) ds pre.length off g).2
      = pre ++ unpackChansSimple data off g ds cs := by
  induction ds with
  | nil => intro pre cs off g; rfl
  | cons d ds2 ih =>
    intro pre cs off g
    cases cs with
    | nil =>
      show (unpackSampleChannels data
          ((pre ++ []).set pre.length
            (unpackStep data d ((pre ++ []).getD pre.length (.F32 [])) off g))
          ds2 (pre.length + 1) (off + d.sample_type.bytes_per_sample) g).2
          = pre ++ unpackChansSimple data off g (d :: ds2) []
      rw [List.set_eq_of_length_le (by simp)]
      rw [unpackSampleChannels_oob data ds2 (pre ++ []) (pre.length + 1) _ g (by simp)]
      simp [unpackChansSimple]
    | cons c cs2 =>
      show (unpackSampleChannels data
          ((pre ++ c :: cs2).set pre.length
            (unpackStep data d ((pre ++ c :: cs2).getD pre.length (.F32 [])) off g))
          ds2 (pre.length + 1) (off + d.sample_type.bytes_per_sample) g).2
          = pre ++ unpackChansSimple data off g (d :: ds2) (c :: cs2)
      rw [getD_append_self]
      have hset : (pre ++ c :: cs2).set pre.length (unpackStep data d c off g)
          = (pre ++ [unpackStep data d c off g]) ++ cs2 := by
        have h9 := set_append_add pre (c :: cs2) 0 (unpackStep data d c off g)
        simp only [Nat.add_zero, List.set_cons_zero] at h9
        simp [h9]
      rw [hset]
      have hrec := ih (pre ++ [unpackStep data d c off g]) cs2
        (off + d.sample_type.bytes_per_sample) g
      rw [show (pre ++ [unpackStep data d c off g]).length = pre.length + 1 by simp] at hrec
      rw [hrec]
      simp [unpackChansSimple]

/-! ### Inverse of the per-sample step -/

theorem getD_lt_of_all (l : List Nat) (B n : Nat) (hB : 0 < B)
    (h : l.all (fun x => decide (x < B)) = true) : l.getD n 0 < B := by
  rcases Nat.lt_or_ge n l.length with hn | hn
  · rw [List.getD_eq_getElem l 0 hn]
    have := List.all_eq_true.mp h l[n] (List.getElem_mem hn)
    simpa using this
  · rw [List.getD_eq_default l 0 hn]
    exact hB

theorem mix_set (v : List Nat) (total g : Nat) (hg : g < total) (hlen : v.length = total) :
    (v.take g ++ List.replicate (total - g) 0).set g (v.getD g 0)
      = v.take (g + 1) ++ List.replicate (total - (g + 1)) 0 := by
  have hgl : g < v.length := by omega
  have htl : (v.take g).length = g := by
    simp [List.length_take]
    omega
  have hrepl : List.replicate (total - g) 0 = 0 :: List.replicate (total - g - 1) 0 := by
    rw [← List.replicate_succ]
    congr 1
    omega
  rw [hrepl]
  have hset := set_append_add (v.take g) (0 :: List.replicate (total - g - 1) 0) 0 (v.getD g 0)
  rw [htl] at hset
  simp only [Nat.add_zero] at hset
  rw [hset, List.set_cons_zero]
  have h2 : v.take (g + 1) = v.take g ++ [v[g]] := by
    rw [List.take_succ, List.getElem?_eq_getElem hgl]
    rfl
  have h3 : total - (g + 1) = total - g - 1 := by omega
  rw [List.getD_eq_getElem v 0 hgl, h2, h3, List.append_assoc]
  rfl

theorem unpackStep_mix (data : List Nat) (total g off : Nat) (d : ChannelDescription)
    (c : DeepChannelData) (rest : List Nat)
    (hm : channelMatches c d.sample_type = true) (hlen : channelLength c = total)
    (hbd : channelValuesBounded c = true) (hg : g < total)
    (hdrop : data.drop off = packOne d c g ++ rest) :
    unpackStep data d (mixChan total g c) off g = mixChan total (g + 1) c := by
  cases c with
  | F16 v =>
    cases hd : d.sample_type with
    | f16 =>
      have hb2 : v.getD g 0 < 256 ^ 2 := by
        have := getD_lt_of_all v (2 ^ 16) g (by norm_num)
          (by simpa [channelValuesBounded] using hbd)
        norm_num at this ⊢
        omega
      have hr : readLe data off 2 = v.getD g 0 := by
        rw [readLe_of_drop data off 2 (v.getD g 0) rest (by rw [hdrop]; simp [packOne, hd])]
        exact Nat.mod_eq_of_lt hb2
      simp only [unpackStep, hd, mixChan]
      rw [hr, mix_set v total g hg hlen]
    | f32 => simp [channelMatches, hd] at hm
    | u32 => simp [channelMatches, hd] at hm
  | F32 v =>
    cases hd : d.sample_type with
    | f16 => simp [channelMatches, hd] at hm
    | f32 =>
      have hb2 : v.getD g 0 < 256 ^ 4 := by
        have := getD_lt_of_all v (2 ^ 32) g (by norm_num)
          (by simpa [channelValuesBounded] using hbd)
        norm_num at this ⊢
        omega
      have hr : readLe data off 4 = v.getD g 0 := by
        rw [readLe_of_drop data off 4 (v.getD g 0) rest (by rw [hdrop]; simp [packOne, hd])]
        exact Nat.mod_eq_of_lt hb2
      simp only [unpackStep, hd, mixChan]
      rw [hr, mix_set v total g hg hlen]
    | u32 => simp [channelMatches, hd] at hm
  | U32 v =>
    cases hd : d.sample_type with
    | f16 => simp [channelMatches, hd] at hm
    | f32 => simp [channelMatches, hd] at hm
    | u32 =>
      have hb2 : v.getD g 0 < 256 ^ 4 := by
        have := getD_lt_of_all v (2 ^ 32) g (by norm_num)
          (by simpa [channelValuesBounded] using hbd)
        norm_num at this ⊢
        omega
      have hr : readLe data off 4 = v.getD g 0 := by
        rw [readLe_of_drop data off 4 (v.getD g 0) rest (by rw [hdrop]; simp [packOne, hd])]
        exact Nat.mod_eq_of_lt hb2
      simp only [unpackStep, hd, mixChan]
      rw [hr, mix_set v total g hg hlen]

theorem unpackChansSimple_inverse (data : List Nat) (total : Nat) :
    ∀ (ds : List ChannelDescription) (cs : List DeepChannelData) (off g : Nat)
    (rest : List Nat),
    channelsWellFormed total cs ds = true → g < total →
    data.drop off = packChansSimple g ds cs ++ rest →
    unpackChansSimple data off g ds (cs.map (mixChan total g))
      = cs.map (mixChan total (g + 1)) := by
  intro ds
  induction ds with
  | nil =>
    intro cs off g rest hwf _ _
    cases cs with
    | nil => rfl
    | cons c cs2 => simp [channelsWellFormed] at hwf
  | cons d ds2 ih =>
    intro cs off g rest hwf hg hdrop
    cases cs with
    | nil => simp [channelsWellFormed] at hwf
    | cons c cs2 =>
      obtain ⟨hm, hlen, hbd, hwf2⟩ := channelsWellFormed_cons total c cs2 d ds2 hwf
      have hdropHead : data.drop off = packOne d c g ++ (packChansSimple g ds2 cs2 ++ rest) := by
        rw [hdrop]
        show packChansSimple g (d :: ds2) (c :: cs2) ++ rest = _
        simp [packChansSimple, List.append_assoc]
      have hdrop2 : data.drop (off + d.sample_type.bytes_per_sample)
          = packChansSimple g ds2 cs2 ++ rest := by
        rw [← List.drop_drop, hdropHead, ← packOne_length total d c g hm, List.drop_left]
      show unpackStep data d (mixChan total g c) off g
          :: unpackChansSimple data (off + d.sample_type.bytes_per_sample) g ds2
               (cs2.map (mixChan total g))
          = mixChan total (g + 1) c :: cs2.map (mixChan total (g + 1))
      rw [unpackStep_mix data total g off d c (packChansSimple g ds2 cs2 ++ rest)
          hm hlen hbd hg hdropHead,
        ih cs2 (off + d.sample_type.bytes_per_sample) g rest hwf2 hg hdrop2]

/-! ### Mix-state endpoints -/

theorem mixChan_zero_alloc (total : Nat) (c : DeepChannelData) (d : ChannelDescription)
    (hm : channelMatches c d.sample_type = true) :
    mixChan total 0 c = allocateChannel total d := by
  cases c <;> cases hd : d.sample_type <;> simp [channelMatches, hd] at hm <;>
    simp [mixChan, allocateChannel, hd]

theorem mixChan_total_self (total : Nat) (c : DeepChannelData)
    (hlen : channelLength c = total) : mixChan total total c = c := by
  cases c <;>
    simp_all [mixChan, channelLength, List.take_of_length_le, Nat.sub_self]

theorem map_mixChan_zero (total : Nat) :
    ∀ (ds : List ChannelDescription) (cs : List DeepChannelData),
    channelsWellFormed total cs ds = true →
    ds.map (allocateChannel total) = cs.map (mixChan total 0) := by
  intro ds
  induction ds with
  | nil =>
    intro cs hwf
    cases cs with
    | nil => rfl
    | cons c cs2 => simp [channelsWellFormed] at hwf
  | cons d ds2 ih =>
    intro cs hwf
    cases cs with
    | nil => simp [channelsWellFormed] at hwf
    | cons c cs2 =>
      obtain ⟨hm, _, _, hwf2⟩ := channelsWellFormed_cons total c cs2 d ds2 hwf
      show allocateChannel total d :: ds2.map (allocateChannel total)
          = mixChan total 0 c :: cs2.map (mixChan total 0)
      rw [mixChan_zero_alloc total c d hm, ih cs2 hwf2]

theorem map_mixChan_total (total : Nat) :
    ∀ (ds : List ChannelDescription) (cs : List DeepChannelData),
    channelsWellFormed total cs ds = true →
    cs.map (mixChan total total) = cs := by
  intro ds
  induction ds with
  | nil =>
    intro cs hwf
    cases cs with
    | nil => rfl
    | cons c cs2 => simp [channelsWellFormed] at hwf
  | cons d ds2 ih =>
    intro cs hwf
    cases cs with
    | nil => rfl
    | cons c cs2 =>
      obtain ⟨_, hlen, _, hwf2⟩ := channelsWellFormed_cons total c cs2 d ds2 hwf
      show mixChan total total c :: cs2.map (mixChan total total) = c :: cs2
      rw [mixChan_total_self total c hlen, ih cs2 hwf2]

/-! ### Loop flattening -/

theorem flatMap_range_length (f : Nat → List Nat) (sz : Nat)
    (hf : ∀ g, (f g).length = sz) (k : Nat) :
    ((List.range k).flatMap f).length = k * sz := by
  induction k with
  | zero => simp
  | succ m ih =>
    rw [List.range_succ, List.flatMap_append, List.length_append, ih, Nat.succ_mul]
    simp [hf]

theorem flatMap_range_drop (f : Nat → List Nat) (sz : Nat)
    (hf : ∀ g, (f g).length = sz) (k total : Nat) (hk : k < total) :
    ∃ rest, ((List.range total).flatMap f).drop (k * sz) = f k ++ rest := by
  have hr : List.range total
      = (List.range k ++ [k]) ++ (List.range (total - (k + 1))).map (fun x => k + 1 + x) := by
    rw [← List.range_succ, ← List.range_add]
    congr 1
    omega
  refine ⟨((List.range (total - (k + 1))).map (fun x => k + 1 + x)).flatMap f, ?_⟩
  rw [hr, List.flatMap_append, List.flatMap_append]
  have hlen : ((List.range k).flatMap f).length = k * sz := flatMap_range_length f sz hf k
  rw [List.append_assoc, ← hlen, List.drop_left]
  simp

theorem foldl_flatMap {α β γ : Type} (l : List α) (f : α → List β)
    (step : γ → β → γ) (init : γ) :
    (l.flatMap f).foldl step init
      = l.foldl (fun acc x => (f x).foldl step acc) init := by
  induction l generalizing init with
  | nil => rfl
  | cons a t ih => rw [List.flatMap_cons, List.foldl_append, List.foldl_cons, ih]

theorem flatMap_range_offsets (f : Nat → Nat) (n : Nat) (h0 : f 0 = 0)
    (hmono : ∀ i, i < n → f i ≤ f (i + 1)) :
    (List.range n).flatMap (fun p => (List.range (f (p + 1) - f p)).map (fun k => f p + k))
      = List.range (f n) := by
  induction n with
  | zero => simp [h0]
  | succ m ih =>
    rw [List.range_succ, List.flatMap_append,
      ih (fun i hi => hmono i (by omega))]
    have hle : f m ≤ f (m + 1) := hmono m (by omega)
    have hsum : f (m + 1) = f m + (f (m + 1) - f m) := by omega
    rw [hsum, List.range_add]
    simp

/-! ### Whole-block pack and unpack in flat form -/

theorem pack_eq_flat (s : DeepSamples) (cl : ChannelList)
    (hlen : s.sample_offsets.length = s.pixel_count + 1)
    (h0 : s.sample_offsets.headD 0 = 0)
    (hm : monotoneList s.sample_offsets = true)
    (hwf : channelsWellFormed s.total_samples s.channels cl.list = true)
    (ht : s.total_samples ≠ 0) :
    pack_deep_channels s cl
      = (List.range s.total_samples).flatMap
          (fun g => packChansSimple g cl.list s.channels) := by
  have hcl : s.channels.length = cl.list.length :=
    channelsWellFormed_length _ _ _ hwf
  have hinner : ∀ start g : Nat,
      packSampleChannels s.channels cl.list 0 (start + g)
        = packChansSimple (start + g) cl.list s.channels := by
    intro start g
    have := packSampleChannels_eq_simple cl.list [] s.channels (start + g) hcl
    simpa using this
  have hbody : pack_deep_channels s cl
      = (List.range s.pixel_count).flatMap (fun pixelIdx =>
          (List.range (s.sample_offsets.getD (pixelIdx + 1) 0
              - s.sample_offsets.getD pixelIdx 0)).flatMap
          (fun sampleIdx => packSampleChannels s.channels cl.list 0
            (s.sample_offsets.getD pixelIdx 0 + sampleIdx))) := by
    simp only [pack_deep_channels, DeepSamples.sample_range, if_neg ht]
  rw [hbody]
  have hstep : (fun pixelIdx => (List.range
        (s.sample_offsets.getD (pixelIdx + 1) 0 - s.sample_offsets.getD pixelIdx 0)).flatMap
        (fun sampleIdx => packSampleChannels s.channels cl.list 0
          (s.sample_offsets.getD pixelIdx 0 + sampleIdx)))
      = (fun pixelIdx => ((List.range
          (s.sample_offsets.getD (pixelIdx + 1) 0 - s.sample_offsets.getD pixelIdx 0)).map
          (fun k => s.sample_offsets.getD pixelIdx 0 + k)).flatMap
          (fun g => packChansSimple g cl.list s.channels)) := by
    funext pixelIdx
    rw [List.flatMap_map]
    exact congrArg _ (funext (hinner (s.sample_offsets.getD pixelIdx 0)))
  rw [hstep, ← List.flatMap_assoc,
    flatMap_range_offsets (fun i => s.sample_offsets.getD i 0) s.pixel_count
      (by show s.sample_offsets.getD 0 0 = 0; rw [← headD_eq_getD]; exact h0)
      (fun i hi => monotoneList_getD_succ s.sample_offsets hm i (by omega))]
  rfl

theorem unpackPixelLoop_eq_flat (data : List Nat) (ds : List ChannelDescription)
    (s : DeepSamples)
    (h0 : s.sample_offsets.headD 0 = 0)
    (hm : monotoneList s.sample_offsets = true)
    (hlen : s.sample_offsets.length = s.pixel_count + 1) :
    unpackPixelLoop data ds s
      = (List.range s.total_samples).foldl
          (fun acc g => unpackSampleChannels data acc.2 ds 0 acc.1 g) (0, s.channels) := by
  have hbody : unpackPixelLoop data ds s
      = (List.range s.pixel_count).foldl
          (fun acc pixelIdx =>
            (List.range (s.sample_offsets.getD (pixelIdx + 1) 0
                - s.sample_offsets.getD pixelIdx 0)).foldl
              (fun acc2 sampleIdx => unpackSampleChannels data acc2.2 ds 0 acc2.1
                (s.sample_offsets.getD pixelIdx 0 + sampleIdx))
              acc)
          (0, s.channels) := by
    simp only [unpackPixelLoop, DeepSamples.sample_range]
  rw [hbody]
  have hstep : (fun (acc : Nat × List DeepChannelData) pixelIdx =>
      (List.range (s.sample_offsets.getD (pixelIdx + 1) 0
          - s.sample_offsets.getD pixelIdx 0)).foldl
        (fun acc2 sampleIdx => unpackSampleChannels data acc2.2 ds 0 acc2.1
          (s.sample_offsets.getD pixelIdx 0 + sampleIdx)) acc)
      = (fun acc pixelIdx =>
        ((List.range (s.sample_offsets.getD (pixelIdx + 1) 0
            - s.sample_offsets.getD pixelIdx 0)).map
          (fun k => s.sample_offsets.getD pixelIdx 0 + k)).foldl
          (fun acc2 g => unpackSampleChannels data acc2.2 ds 0 acc2.1 g) acc) := by
    funext acc pixelIdx
    rw [List.foldl_map]
  rw [hstep, ← foldl_flatMap,
    flatMap_range_offsets (fun i => s.sample_offsets.getD i 0) s.pixel_count
      (by show s.sample_offsets.getD 0 0 = 0; rw [← headD_eq_getD]; exact h0)
      (fun i hi => monotoneList_getD_succ s.sample_offsets hm i (by omega))]
  rfl

theorem unpack_fold_inv (total : Nat) (ds : List ChannelDescription)
    (cs : List DeepChannelData) (hwf : channelsWellFormed total cs ds = true)
    (k : Nat) (hk : k ≤ total) :
    (List.range k).foldl
      (fun acc g => unpackSampleChannels
        ((List.range total).flatMap (fun g2 => packChansSimple g2 ds cs))
        acc.2 ds 0 acc.1 g)
      (0, cs.map (mixChan total 0))
    = (k * channelsSize ds, cs.map (mixChan total k)) := by
  induction k with
  | zero => simp
  | succ m ih =>
    rw [List.range_succ, List.foldl_append, ih (by omega), List.foldl_cons, List.foldl_nil]
    have hf : ∀ g, (packChansSimple g ds cs).length = channelsSize ds :=
      fun g => packChansSimple_length total g ds cs hwf
    obtain ⟨rest, hdrop0⟩ := flatMap_range_drop (fun g2 => packChansSimple g2 ds cs)
      (channelsSize ds) hf m total (by omega)
    apply Prod.ext
    · rw [unpackSampleChannels_fst, Nat.succ_mul]
    · have hsimple := unpackSampleChannels_eq_simple
        ((List.range total).flatMap (fun g2 => packChansSimple g2 ds cs)) ds
        [] (cs.map (mixChan total m)) (m * channelsSize ds) m
      simp only [List.nil_append, List.length_nil] at hsimple
      rw [hsimple,
        unpackChansSimple_inverse _ total ds cs (m * channelsSize ds) m rest hwf
          (by omega) hdrop0]

theorem unpack_pack_general (s s2 : DeepSamples) (cl : ChannelList)
    (hv : validDeepSamples s cl = true) (hw : s2.width = s.width)
    (hh : s2.height = s.height) (ho : s2.sample_offsets = s.sample_offsets) :
    unpack_deep_channels (pack_deep_channels s cl) s2 cl
      = ({ s2 with channels := s.channels }, .ok ()) := by
  have hv' := hv
  simp only [validDeepSamples, validSampleOffsets, Bool.and_eq_true, beq_iff_eq] at hv'
  obtain ⟨⟨⟨hlen, h0⟩, hm⟩, hwf⟩ := hv'
  have hpc : s2.pixel_count = s.pixel_count := by
    simp [DeepSamples.pixel_count, hw, hh]
  have htot : s2.total_samples = s.total_samples := by
    simp [DeepSamples.total_samples, ho, hpc]
  by_cases hts : s.total_samples = 0
  · have hpack : pack_deep_channels s cl = [] := by
      simp [pack_deep_channels, hts]
    have hchan : cl.list.map (allocateChannel 0) = s.channels := by
      have hwf0 : channelsWellFormed 0 s.channels cl.list = true := by
        rw [hts] at hwf; exact hwf
      rw [map_mixChan_zero 0 cl.list s.channels hwf0,
        map_mixChan_total 0 cl.list s.channels hwf0]
    rw [hpack]
    simp only [unpack_deep_channels, DeepSamples.allocate_channels, htot, hts, if_pos]
    rw [hchan]
  · have hflat := pack_eq_flat s cl hlen h0 hm hwf hts
    have hlenpack : (pack_deep_channels s cl).length
        = s.total_samples * channelsSize cl.list := by
      rw [hflat]
      exact flatMap_range_length _ _
        (fun g => packChansSimple_length _ g _ _ hwf) _
    simp only [unpack_deep_channels, htot]
    rw [if_neg hts, if_neg (by rw [hlenpack]; exact fun h => h rfl)]
    have hloop : unpackPixelLoop (pack_deep_channels s cl) cl.list
        (s2.allocate_channels cl)
        = (s.total_samples * channelsSize cl.list, s.channels) := by
      have halloc_off : (s2.allocate_channels cl).sample_offsets = s.sample_offsets := ho
      have halloc_tot : (s2.allocate_channels cl).total_samples = s.total_samples := htot
      have halloc_pc : (s2.allocate_channels cl).pixel_count = s.pixel_count := by
        show s2.pixel_count = s.pixel_count
        exact hpc
      rw [unpackPixelLoop_eq_flat (pack_deep_channels s cl) cl.list
          (s2.allocate_channels cl)
          (by rw [halloc_off]; exact h0) (by rw [halloc_off]; exact hm)
          (by rw [halloc_off, halloc_pc]; exact hlen)]
      have hchans : (s2.allocate_channels cl).channels
          = s.channels.map (mixChan s.total_samples 0) := by
        show cl.list.map (allocateChannel s2.total_samples) = _
        rw [htot]
        exact map_mixChan_zero s.total_samples cl.list s.channels hwf
      rw [halloc_tot, hchans, hflat,
        unpack_fold_inv s.total_samples cl.list s.channels hwf s.total_samples
          (le_refl _),
        map_mixChan_total s.total_samples cl.list s.channels hwf]
    rw [hloop]
    simp [DeepSamples.allocate_channels]

/-! ### Helpers for the full codec pipeline -/

theorem pack_length (s : DeepSamples) (cl : ChannelList)
    (hv : validDeepSamples s cl = true) :
    (pack_deep_channels s cl).length = s.total_samples * channelsSize cl.list := by
  have hv' := hv
  simp only [validDeepSamples, validSampleOffsets, Bool.and_eq_true, beq_iff_eq] at hv'
  obtain ⟨⟨⟨hlen, h0⟩, hm⟩, hwf⟩ := hv'
  by_cases hts : s.total_samples = 0
  · simp [pack_deep_channels, hts]
  · rw [pack_eq_flat s cl hlen h0 hm hwf hts]
    exact flatMap_range_length _ _ (fun g => packChansSimple_length _ g _ _ hwf) _

theorem compress_deep_scanline_block_eq (s : DeepSamples) (comp : Compression)
    (cl : ChannelList) (y : Int) :
    compress_deep_scanline_block s comp cl y
      = .ok { y_coordinate := y
              decompressed_sample_data_size := (pack_deep_channels s cl).length
              compressed_pixel_offset_table :=
                (sampleTableBytes (s.sample_offsets.map (fun c => toI32 c))).map
                  (fun b => toI8 b)
              compressed_sample_data_le := pack_deep_channels s cl } := rfl

theorem offsets_lt (s : DeepSamples)
    (hlen : s.sample_offsets.length = s.pixel_count + 1)
    (hm : monotoneList s.sample_offsets = true) (hb : s.total_samples < 2 ^ 31) :
    ∀ x ∈ s.sample_offsets, x < 2 ^ 31 := by
  intro x hx
  obtain ⟨i, hi, hix⟩ := List.mem_iff_getElem.mp hx
  have hgd : s.sample_offsets.getD i 0 = x := by
    rw [List.getD_eq_getElem _ _ hi, hix]
  have hle := monotoneList_getD_le s.sample_offsets hm i s.pixel_count
    (by omega) (by omega)
  have htot : s.sample_offsets.getD s.pixel_count 0 = s.total_samples := rfl
  omega

theorem parse_compress_table (offsets : List Nat) (hlt : ∀ x ∈ offsets, x < 2 ^ 31) :
    parseI32s (sampleTableBytes (offsets.map (fun c => toI32 c)))
      = offsets.map (fun c => toI32 c) := by
  rw [parseI32s_sampleTableBytes, List.map_map]
  apply List.map_congr_left
  intro x hx
  show toI32 (toU32 (toI32 x)) = toI32 x
  rw [toU32_toI32 x (by have := hlt x hx; omega)]

theorem map_toU32_map_toI32 (l : List Nat) (hlt : ∀ x ∈ l, x < 2 ^ 32) :
    (l.map (fun c => toI32 c)).map toU32 = l := by
  rw [List.map_map]
  conv_rhs => rw [← List.map_id l]
  apply List.map_congr_left
  intro x hx
  show toU32 (toI32 x) = x
  exact toU32_toI32 x (hlt x hx)

theorem set_counts_ok (w h : Nat) (offsets : List Nat)
    (hlen : offsets.length = w * h + 1) (h0 : offsets.headD 0 = 0)
    (hm : monotoneList offsets = true) :
    (DeepSamples.new w h).set_cumulative_counts offsets
      = .ok { width := w, height := h, sample_offsets := offsets, channels := [] } := by
  have hne : offsets.length ≠ w * h := by omega
  have h0' : offsets.head?.getD 0 = 0 := by
    rw [← List.headD_eq_head?_getD]; exact h0
  simp only [DeepSamples.set_cumulative_counts, DeepSamples.new, DeepSamples.pixel_count,
    if_neg hne]
  rw [if_pos]
  simp [hlen, h0', hm, DeepSamples.pixel_count]

theorem channelsWellFormed_all_len (total : Nat) :
    ∀ (ds : List ChannelDescription) (cs : List DeepChannelData),
    channelsWellFormed total cs ds = true →
    cs.all (fun c => channelLength c == total) = true := by
  intro ds
  induction ds with
  | nil =>
    intro cs hwf
    cases cs with
    | nil => rfl
    | cons c cs2 => simp [channelsWellFormed] at hwf
  | cons d ds2 ih =>
    intro cs hwf
    cases cs with
    | nil => rfl
    | cons c cs2 =>
      obtain ⟨_, hlen, _, hwf2⟩ := channelsWellFormed_cons total c cs2 d ds2 hwf
      simp [List.all_cons, hlen, ih cs2 hwf2]

theorem validate_ok (s : DeepSamples) (cl : ChannelList)
    (hv : validDeepSamples s cl = true) : s.validate = .ok () := by
  have hv' := hv
  simp only [validDeepSamples, validSampleOffsets, Bool.and_eq_true, beq_iff_eq] at hv'
  obtain ⟨⟨⟨hlen, h0⟩, hm⟩, hwf⟩ := hv'
  have h0' : s.sample_offsets.head?.getD 0 = 0 := by
    rw [← List.headD_eq_head?_getD]; exact h0
  unfold DeepSamples.validate
  rw [if_pos]
  simp [hlen, h0', hm, channelsWellFormed_all_len s.total_samples cl.list s.channels hwf]

theorem decompress_steps (block : CompressedDeepScanLineBlock) (comp : Compression)
    (cl : ChannelList) (w h : Nat) (ped : Bool) (T : List Int) (s1 : DeepSamples)
    (D : List Nat) (s2 : DeepSamples)
    (h1 : decompress_sample_table comp (block.compressed_pixel_offset_table.map toU8)
      w h ped = .ok T)
    (h2 : validate_sample_table T = .ok ())
    (h3 : (DeepSamples.new w h).set_cumulative_counts (T.map toU32) = .ok s1)
    (h4 : decompress_sample_data comp block.compressed_sample_data_le
      block.decompressed_sample_data_size ped = .ok D)
    (h5 : unpack_deep_channels D s1 cl = (s2, .ok ()))
    (h6 : s2.validate = .ok ()) :
    decompress_deep_scanline_block block comp cl w h ped = .ok s2 := by
  simp only [decompress_deep_scanline_block, h1, h2, h3, h4, h5, h6]

theorem pack_empty_channels (s : DeepSamples) :
    pack_deep_channels s emptyChannelList = [] := by
  unfold pack_deep_channels
  split
  · rfl
  · rw [List.flatMap_eq_nil_iff]
    intro p _
    rw [List.flatMap_eq_nil_iff]
    intro k _
    rfl

theorem compress_samplesBig :
    compress_deep_scanline_block samplesBig .uncompressed emptyChannelList 0
      = .ok { y_coordinate := 0, decompressed_sample_data_size := 0,
              compressed_pixel_offset_table :=
                (sampleTableBytes [0, -(2 ^ 31)]).map (fun b => toI8 b),
              compressed_sample_data_le := [] } := by
  rw [compress_deep_scanline_block_eq, pack_empty_channels]
  rw [show samplesBig.sample_offsets.map (fun c => toI32 c) = [0, -(2 ^ 31)] by decide]
  rfl

/-! ### Claim theorems -/

/-- C1: the claim states that on decode the per-line cumulative on-disk table
is converted to per-pixel cumulative offsets before `set_cumulative_counts`
receives it. The code performs no such conversion (it only casts `i32 → u32`),
contradicting the module doc of `deep.rs`: on the doc's own example table
`[2,3,6,0,2,3]` (3 wide, 2 lines) the decode path rejects the documented
on-disk format as non-monotone, while the claim's conversion would install
`[0,2,3,6,6,8,9]`. -/
theorem c1_decode_table_unconverted :
    decompress_deep_scanline_block blockPerLine .uncompressed emptyChannelList 3 2 true
      = .error (.invalid "sample table counts not monotonically non-decreasing")
    ∧ disk_table_to_pixel_offsets 3 2 perLineTable = [0, 2, 3, 6, 6, 8, 9] := by
  decide

/-- C2: the claim states that encode hands `compress_sample_table` the
per-line cumulative table with exactly `width * height` entries. The code
hands it the raw per-pixel cumulative `sample_offsets` instead
(`pixel_count + 1` entries, no per-line restart): on the repo test's own 2×2
block with offsets `[0,1,3,3,6]`, the compressed table encodes the 5-entry
per-pixel list, not the 4-entry per-line table `[1,3,0,3]`. -/
theorem c2_encode_table_not_per_line :
    compress_deep_scanline_block samplesFourPixel .uncompressed emptyChannelList 0
      = .ok { y_coordinate := 0, decompressed_sample_data_size := 0,
              compressed_pixel_offset_table :=
                (sampleTableBytes (samplesFourPixel.sample_offsets.map
                  (fun c => toI32 c))).map (fun b => toI8 b),
              compressed_sample_data_le := [] }
    ∧ samplesFourPixel.sample_offsets.map (fun c => toI32 c)
        ≠ pixel_offsets_to_disk_table 2 2 samplesFourPixel.sample_offsets
    ∧ pixel_offsets_to_disk_table 2 2 samplesFourPixel.sample_offsets = [1, 3, 0, 3]
    ∧ (samplesFourPixel.sample_offsets.map (fun c => toI32 c)).length ≠ 2 * 2 := by
  decide

/-- C3 counterexample: a structurally valid block (I1 and I2 hold) whose
single pixel has `2^31` samples compresses fine, but decompressing the result
fails: the wrap-around `u32 → i32` cast makes the table non-monotone. The
round trip as claimed (for every valid `DeepSamples`) is therefore false. -/
theorem c3_roundtrip_counterexample :
    validDeepSamples samplesBig emptyChannelList = true
    ∧ ((compress_deep_scanline_block samplesBig .uncompressed emptyChannelList 0).bind
        (fun b => decompress_deep_scanline_block b .uncompressed emptyChannelList 1 1 true))
      ≠ .ok samplesBig := by
  refine ⟨by decide, ?_⟩
  rw [compress_samplesBig]
  decide

/-- C3 (amended): for every valid `DeepSamples` whose `total_samples` is below
`2^31`, every matching channel list and every compression tag (the external
compressors being modelled as round-tripping), decompressing the compressed
block returns a `DeepSamples` equal to the input: same offsets, value-wise
equal channels. -/
theorem c3_roundtrip_amended (s : DeepSamples) (cl : ChannelList)
    (comp : Compression) (y : Int) (pedantic : Bool)
    (hv : validDeepSamples s cl = true) (hbound : s.total_samples < 2 ^ 31) :
    (compress_deep_scanline_block s comp cl y).bind
      (fun b => decompress_deep_scanline_block b comp cl s.width s.height pedantic)
      = .ok s := by
  have hv' := hv
  simp only [validDeepSamples, validSampleOffsets, Bool.and_eq_true, beq_iff_eq] at hv'
  obtain ⟨⟨⟨hlen, h0⟩, hm⟩, hwf⟩ := hv'
  have hlt : ∀ x ∈ s.sample_offsets, x < 2 ^ 31 := offsets_lt s hlen hm hbound
  rw [compress_deep_scanline_block_eq]
  show decompress_deep_scanline_block
      { y_coordinate := y,
        decompressed_sample_data_size := (pack_deep_channels s cl).length,
        compressed_pixel_offset_table :=
          (sampleTableBytes (s.sample_offsets.map (fun c => toI32 c))).map
            (fun b => toI8 b),
        compressed_sample_data_le := pack_deep_channels s cl }
      comp cl s.width s.height pedantic = .ok s
  apply decompress_steps _ comp cl s.width s.height pedantic
    (s.sample_offsets.map (fun c => toI32 c))
    ⟨s.width, s.height, s.sample_offsets, []⟩ (pack_deep_channels s cl) s
  · show decompress_sample_table comp
        (((sampleTableBytes (s.sample_offsets.map (fun c => toI32 c))).map
          (fun b => toI8 b)).map toU8) s.width s.height pedantic
      = .ok (s.sample_offsets.map (fun c => toI32 c))
    unfold decompress_sample_table
    rw [map_toU8_map_toI8 _ (sampleTableBytes_lt _),
      parse_compress_table s.sample_offsets hlt]
  · unfold validate_sample_table
    rw [if_pos (intMonotone_map_toI32 s.sample_offsets hm hlt)]
  · rw [map_toU32_map_toI32 s.sample_offsets (fun x hx => by have := hlt x hx; omega)]
    exact set_counts_ok s.width s.height s.sample_offsets
      (by simpa [DeepSamples.pixel_count] using hlen) h0 hm
  · unfold decompress_sample_data
    rw [if_pos rfl]
  · exact unpack_pack_general s ⟨s.width, s.height, s.sample_offsets, []⟩ cl hv rfl rfl rfl
  · exact validate_ok s cl hv

/-- C3 witness: the round trip at a concrete 2×2 one-channel block. -/
theorem c3_roundtrip_witness :
    (compress_deep_scanline_block samplesRt .uncompressed f32ChannelList 0).bind
      (fun b => decompress_deep_scanline_block b .uncompressed f32ChannelList
        samplesRt.width samplesRt.height true)
      = .ok samplesRt :=
  c3_roundtrip_amended samplesRt f32ChannelList .uncompressed 0 true
    (by decide) (by decide)

/-- C4 counterexample: with `total_samples = 0` and a non-empty buffer the
length differs from the expected product, yet `unpack_deep_channels` returns
`Ok` (the zero-sample early return precedes the size check), contradicting
the claim's "every such length deviation". -/
theorem c4_size_mismatch_counterexample :
    samplesZero.total_samples = 0
    ∧ ([7] : List Nat).length
        ≠ samplesZero.total_samples * channelsSize f32ChannelList.list
    ∧ (unpack_deep_channels [7] samplesZero f32ChannelList).2 = .ok () := by
  decide

/-- C4 (amended): whenever `total_samples` is non-zero and the decompressed
buffer's length differs from `total_samples` times the summed bytes per
sample, `unpack_deep_channels` fails with the size-mismatch error; when
`total_samples = 0` the buffer length is never checked. -/
theorem c4_size_mismatch_amended (data : List Nat) (s : DeepSamples)
    (cl : ChannelList) (hts : s.total_samples ≠ 0)
    (hlen : data.length ≠ s.total_samples * channelsSize cl.list) :
    (unpack_deep_channels data s cl).2 = .error (.invalid sizeMismatchMessage) := by
  simp only [unpack_deep_channels, if_neg hts, if_pos hlen]

/-- C4 witness: a one-sample block with an empty buffer. -/
theorem c4_size_mismatch_witness :
    (unpack_deep_channels [] samplesMismatch f32ChannelList).2
      = .error (.invalid sizeMismatchMessage) :=
  c4_size_mismatch_amended [] samplesMismatch f32ChannelList (by decide) (by decide)

/-- C5 counterexample: on a `DeepSamples` whose stored U32 channel mismatches
the F32 channel list, `unpack_deep_channels` returns `Ok` (the reallocation
erases the mismatch) and `pack_deep_channels` returns normally with the
mismatched channel's bytes silently omitted — neither fails with an
`InternalConsistency` error as the claim requires. -/
theorem c5_variant_mismatch_counterexample :
    channelMatches (samplesMismatch.channels.getD 0 (.F32 []))
      ((f32ChannelList.list.getD 0 ⟨"", .f32, true⟩).sample_type) = false
    ∧ (unpack_deep_channels [0, 0, 0, 0] samplesMismatch f32ChannelList).2 = .ok ()
    ∧ pack_deep_channels samplesMismatch f32ChannelList = [] := by
  decide

/-- C5 (amended): the codec never raises an internal-consistency error on a
variant mismatch: the only error `unpack_deep_channels` can return is the
size mismatch (`pack_deep_channels` is infallible and silently skips a
mismatched channel, as the counterexample shows). -/
theorem c5_variant_mismatch_amended (data : List Nat) (s : DeepSamples)
    (cl : ChannelList) :
    (unpack_deep_channels data s cl).2 = .ok ()
      ∨ (unpack_deep_channels data s cl).2 = .error (.invalid sizeMismatchMessage) := by
  simp only [unpack_deep_channels]
  split
  · left; rfl
  · split
    · right; rfl
    · left; rfl

/-- C6 counterexample: with a variant mismatch, `pack_deep_channels` silently
omits the channel's bytes, so its length is not the claimed product, and the
recorded `decompressed_sample_data_size` (the packed length) differs from the
product as well. -/
theorem c6_pack_size_counterexample :
    (pack_deep_channels samplesMismatch f32ChannelList).length
      ≠ samplesMismatch.total_samples * channelsSize f32ChannelList.list
    ∧ (compress_deep_scanline_block samplesMismatch .uncompressed f32ChannelList 0).map
        (fun b => b.decompressed_sample_data_size)
      ≠ .ok (samplesMismatch.total_samples * channelsSize f32ChannelList.list) := by
  decide

/-- C6 (amended): for every valid `DeepSamples` (I1 and I2, in particular
matching variants), the packed byte vector has length exactly
`total_samples * Σ bytes_per_sample`, and the block record's
`decompressed_sample_data_size` equals that same product. -/
theorem c6_pack_size_amended (s : DeepSamples) (cl : ChannelList)
    (comp : Compression) (y : Int) (hv : validDeepSamples s cl = true) :
    (pack_deep_channels s cl).length = s.total_samples * channelsSize cl.list
    ∧ (compress_deep_scanline_block s comp cl y).map
        (fun b => b.decompressed_sample_data_size)
      = .ok (s.total_samples * channelsSize cl.list) := by
  have hl := pack_length s cl hv
  refine ⟨hl, ?_⟩
  rw [compress_deep_scanline_block_eq]
  simp [Except.map, hl]

/-- C6 witness: the size identity at a concrete 2×2 one-channel block. -/
theorem c6_pack_size_witness :
    (pack_deep_channels samplesRt f32ChannelList).length
      = samplesRt.total_samples * channelsSize f32ChannelList.list
    ∧ (compress_deep_scanline_block samplesRt .uncompressed f32ChannelList 0).map
        (fun b => b.decompressed_sample_data_size)
      = .ok (samplesRt.total_samples * channelsSize f32ChannelList.list) :=
  c6_pack_size_amended samplesRt f32ChannelList .uncompressed 0 (by decide)

/-- C7 counterexample: a line total of `2^31` exceeds `i32::MAX`, yet the
encode path succeeds — no `Overflow` error — and the cast silently wraps the
offset to the negative value `-2^31`. -/
theorem c7_overflow_counterexample :
    2 ^ 31 - 1 < samplesBig.sample_offsets.getD 1 0
    ∧ compress_deep_scanline_block samplesBig .uncompressed emptyChannelList 0
        = .ok { y_coordinate := 0, decompressed_sample_data_size := 0,
                compressed_pixel_offset_table :=
                  (sampleTableBytes [0, -(2 ^ 31)]).map (fun b => toI8 b),
                compressed_sample_data_le := [] }
    ∧ toI32 (2 ^ 31) = -(2 ^ 31) := by
  refine ⟨by decide, compress_samplesBig, by decide⟩

/-- C7 (amended): the encode conversion never fails: for every input the block
is assembled with the table obtained by the plain wrap-around cast
`toI32` of each per-pixel cumulative offset, with no overflow check. -/
theorem c7_encode_cast_wraps (s : DeepSamples) (comp : Compression)
    (cl : ChannelList) (y : Int) :
    compress_deep_scanline_block s comp cl y
      = .ok { y_coordinate := y,
              decompressed_sample_data_size := (pack_deep_channels s cl).length,
              compressed_pixel_offset_table :=
                (sampleTableBytes (s.sample_offsets.map (fun c => toI32 c))).map
                  (fun b => toI8 b),
              compressed_sample_data_le := pack_deep_channels s cl } :=
  compress_deep_scanline_block_eq s comp cl y

/-- C8: for every valid `DeepSamples` (variants matching the channel list,
array lengths equal to `total_samples`, offsets well-formed, values within
the 16- or 32-bit payload width guaranteed by the Rust types), unpacking the
bytes produced by pack restores the `DeepSamples` exactly — every f16/f32/u32
bit pattern is preserved through the little-endian byte round trip. -/
theorem c8_pack_unpack_exact (s : DeepSamples) (cl : ChannelList)
    (hv : validDeepSamples s cl = true) :
    unpack_deep_channels (pack_deep_channels s cl) s cl = (s, .ok ()) :=
  unpack_pack_general s s cl hv rfl rfl rfl

/-- C8 witness: pack/unpack at a concrete block with an F16 and a U32
channel. -/
theorem c8_pack_unpack_witness :
    unpack_deep_channels (pack_deep_channels samplesMixed mixedChannelList)
      samplesMixed mixedChannelList = (samplesMixed, .ok ()) :=
  c8_pack_unpack_exact samplesMixed mixedChannelList (by decide)

/-- C9: a block with `total_samples = 0` packs to the empty byte vector, and
unpacking an empty buffer succeeds, leaving one empty channel array per
channel-list entry with the variant dictated by its `sample_type`. -/
theorem c9_zero_samples (s : DeepSamples) (cl : ChannelList)
    (hts : s.total_samples = 0) :
    pack_deep_channels s cl = []
    ∧ unpack_deep_channels [] s cl
        = ({ s with channels := cl.list.map (allocateChannel 0) }, .ok ()) := by
  constructor
  · simp [pack_deep_channels, hts]
  · simp [unpack_deep_channels, DeepSamples.allocate_channels, hts]

/-- C9 witness: the zero-sample behaviour at a concrete 1×1 block with an F16
and a U32 channel. -/
theorem c9_zero_samples_witness :
    pack_deep_channels samplesZero mixedChannelList = []
    ∧ unpack_deep_channels [] samplesZero mixedChannelList
        = ({ samplesZero with
              channels := mixedChannelList.list.map (allocateChannel 0) }, .ok ()) :=
  c9_zero_samples samplesZero mixedChannelList (by decide)

/-- C10: `unpack_deep_channels` only ever modifies the `channels` field:
whatever the input and whether it returns `Ok` or an error, the `width`,
`height` and `sample_offsets` of the returned `DeepSamples` state are those
of the input. -/
theorem c10_unpack_frame (data : List Nat) (s : DeepSamples) (cl : ChannelList) :
    (unpack_deep_channels data s cl).1.width = s.width
    ∧ (unpack_deep_channels data s cl).1.height = s.height
    ∧ (unpack_deep_channels data s cl).1.sample_offsets = s.sample_offsets := by
  simp only [unpack_deep_channels]
  split
  · exact ⟨rfl, rfl, rfl⟩
  · split
    · exact ⟨rfl, rfl, rfl⟩
    · exact ⟨rfl, rfl, rfl⟩

end Exrs

